import Mathlib

/-!
Verification development for the ALSCalendarParser repository (Go).

The program fetches an HTML calendar page, extracts `(date, description)`
events, diffs them against a DynamoDB snapshot keyed by a content key
`YYYYMMDD_<first 8 hex chars of sha256(description)>`, applies add/delete
mutations, and decides whether to send a notification email.

Shallow embedding conventions:
 - `time.Time` values are modeled as `Int` seconds since the Unix epoch in
   UTC (the program parses plain `YYYYMMDD` dates, which Go represents as
   midnight UTC). `t.After(u)` is `u < t`, `t.Before(u)` is `t < u`, and
   `now.AddDate(0, 0, 60)` is `now + 60 * 86400` (UTC has no DST).
 - Go strings are modeled as Lean `String` / `List Char`. Byte-level
   operations of the source (`checksum[:8]`, sha256 of the UTF-8 bytes)
   are modeled via an explicit UTF-8 encoder where bytes matter.
 - The DynamoDB table is modeled as a `List StoredEvent` whose operations
   (`putEvent` upsert by key, `deleteEvent` by key, scan) mirror the
   DynamoDB calls of the source; fallible calls are driven by an explicit
   failure schedule `StoreModel` so that error paths can be stated.
 - `uint32` arithmetic of sha256 is `Nat` arithmetic with explicit
   `% 4294967296`.
-/

set_option maxHeartbeats 4000000
set_option maxRecDepth 8000

namespace ALSCal

/-! ## Calendar date arithmetic (Go `time` essentials, proleptic Gregorian) -/

/-- Civil date from a day number (days since 1970-01-01, UTC);
Howard Hinnant's algorithm, as used by Go's absolute-date conversions. -/
def civilFromDays (z0 : Int) : Int × Int × Int :=
  let z := z0 + 719468
  let era := z.fdiv 146097
  let doe := (z - era * 146097).toNat
  let yoe := (doe - doe / 1460 + doe / 36524 - doe / 146096) / 365
  let doy := doe - (365 * yoe + yoe / 4 - yoe / 100)
  let mp := (5 * doy + 2) / 153
  let d : Int := (doy : Int) - ((153 * mp + 2) / 5 : Nat) + 1
  let m : Int := (mp : Int) + (if (mp : Int) < 10 then 3 else -9)
  let y : Int := (yoe : Int) + era * 400 + (if m ≤ 2 then 1 else 0)
  (y, m, d)

/-- Day number (days since 1970-01-01) of a civil date. -/
def daysFromCivil (y m d : Int) : Int :=
  let y := y - (if m ≤ 2 then 1 else 0)
  let era := y.fdiv 400
  let yoe := (y - era * 400).toNat
  let mp := (if m ≤ 2 then m + 9 else m - 3).toNat
  let doy := (153 * mp + 2) / 5 + (d - 1)
  let doe := (yoe * 365 + yoe / 4 - yoe / 100 : Nat) + doy
  era * 146097 + doe - 719468

/-- Zero-pad a natural number to a given width (Go's fixed-width verbs). -/
def padNat (w : Nat) (n : Nat) : String :=
  let s := toString n
  ⟨List.replicate (w - s.length) '0' ++ s.data⟩

/-- Zero-padded formatting of an integer field of a date. -/
def padInt (w : Nat) (n : Int) : String :=
  if n < 0 then "-" ++ padNat w (-n).toNat else padNat w n.toNat

/-- `date.Format("20060102")` of the source, on a time in seconds (UTC). -/
def formatYYYYMMDD (t : Int) : String :=
  let c := civilFromDays (t.fdiv 86400)
  padInt 4 c.1 ++ padInt 2 c.2.1 ++ padInt 2 c.2.2

/-- Gregorian leap-year rule (as in Go's `time` package). -/
def isLeapYear (y : Nat) : Bool :=
  y % 4 == 0 && (y % 100 != 0 || y % 400 == 0)

/-- Number of days in a month (Go `daysIn`). -/
def daysInMonth (y mo : Nat) : Nat :=
  if mo == 2 then (if isLeapYear y then 29 else 28)
  else if mo == 4 || mo == 6 || mo == 9 || mo == 11 then 30
  else 31

/-- Decimal digit value of a character, `none` on a non-digit. -/
def digitVal (c : Char) : Option Nat :=
  if 48 ≤ c.toNat && c.toNat ≤ 57 then some (c.toNat - 48) else none

/-- `time.Parse("20060102", s)` of the source: exactly eight digits forming
a valid `YYYYMMDD` calendar date; the result is the midnight-UTC time in
seconds. Returns `none` exactly when Go's parse returns an error. -/
def parseYYYYMMDD (l : List Char) : Option Int :=
  match l with
  | [c1, c2, c3, c4, c5, c6, c7, c8] =>
    match digitVal c1, digitVal c2, digitVal c3, digitVal c4,
          digitVal c5, digitVal c6, digitVal c7, digitVal c8 with
    | some a, some b, some c, some d, some e, some f, some g, some h =>
      let y := 1000 * a + 100 * b + 10 * c + d
      let mo := 10 * e + f
      let da := 10 * g + h
      if 1 ≤ mo ∧ mo ≤ 12 ∧ 1 ≤ da ∧ da ≤ daysInMonth y mo then
        some (86400 * daysFromCivil (y : Int) (mo : Int) (da : Int))
      else none
    | _, _, _, _, _, _, _, _ => none
  | _ => none

/-! ## Text normalizer (`cleanText`) -/

/-- The character class `[\s\p{Zs}]` of the source's regexp: Go (RE2) `\s`
is `[\t\n\f\r ]`, and `\p{Zs}` is the Unicode space-separator category. -/
def isGoSpace (c : Char) : Bool :=
  let n := c.toNat
  n == 9 || n == 10 || n == 12 || n == 13 || n == 32 || n == 160 || n == 5760 ||
    (8192 ≤ n && n ≤ 8202) || n == 8239 || n == 8287 || n == 12288

/-- `unicode.IsSpace` (used by `strings.TrimSpace`): the Unicode
White_Space property. -/
def isUniSpace (c : Char) : Bool :=
  let n := c.toNat
  (9 ≤ n && n ≤ 13) || n == 32 || n == 133 || n == 160 || n == 5760 ||
    (8192 ≤ n && n ≤ 8202) || n == 8232 || n == 8233 || n == 8239 || n == 8287 ||
    n == 12288

/-- `re.ReplaceAllString(s, " ")` for the pattern `[\s\p{Zs}]+`: each
maximal run of matching characters becomes a single ASCII space. `prev`
records whether the previous character belonged to the current run. -/
def collapseAux (prev : Bool) : List Char → List Char
  | [] => []
  | c :: cs =>
    if isGoSpace c then
      if prev then collapseAux true cs else ' ' :: collapseAux true cs
    else c :: collapseAux false cs

/-- `strings.TrimSpace`: drop Unicode whitespace from both ends. -/
def trimL (l : List Char) : List Char :=
  ((l.dropWhile isUniSpace).reverse.dropWhile isUniSpace).reverse

/-- `strings.ReplaceAll(s, " – ", " - ")`: left-to-right, non-overlapping
replacement of the en-dash pattern (the match patterns are ordered, so the
first arm takes precedence exactly like Go's scan). -/
def replaceDash : List Char → List Char
  | ' ' :: '–' :: ' ' :: rest => ' ' :: '-' :: ' ' :: replaceDash rest
  | c :: rest => c :: replaceDash rest
  | [] => []

/-- `cleanText` of the source on `List Char`: collapse whitespace runs,
trim, then normalize the spaced en-dash. -/
def cleanTextL (l : List Char) : List Char :=
  replaceDash (trimL (collapseAux false l))

/-- `cleanText` of the source. -/
def cleanText (s : String) : String := ⟨cleanTextL s.data⟩

/-- Every regex-space character of the list is a plain ASCII space
(invariant of the whitespace-collapse step's output). -/
def AllSp (l : List Char) : Prop := ∀ c ∈ l, isGoSpace c = true → c = ' '

/-- No two adjacent characters are both regex-space (stated pairwise via
`List.Chain'`). -/
def ChR (a b : Char) : Prop := ¬(isGoSpace a = true ∧ isGoSpace b = true)

/-! ## SHA-256 (`crypto/sha256` + `fmt.Sprintf("%x", hash)`) -/

/-- 32-bit right rotation. -/
def rotr (n x : Nat) : Nat := ((x >>> n) ||| (x <<< (32 - n))) % 4294967296

/-- The 64 SHA-256 round constants (FIPS 180-4), written in decimal. -/
def K256 : List Nat :=
  [1116352408, 1899447441, 3049323471, 3921009573, 961987163,
   1508970993, 2453635748, 2870763221, 3624381080, 310598401,
   607225278, 1426881987, 1925078388, 2162078206, 2614888103,
   3248222580, 3835390401, 4022224774, 264347078, 604807628,
   770255983, 1249150122, 1555081692, 1996064986, 2554220882,
   2821834349, 2952996808, 3210313671, 3336571891, 3584528711,
   113926993, 338241895, 666307205, 773529912, 1294757372,
   1396182291, 1695183700, 1986661051, 2177026350, 2456956037,
   2730485921, 2820302411, 3259730800, 3345764771, 3516065817,
   3600352804, 4094571909, 275423344, 430227734, 506948616,
   659060556, 883997877, 958139571, 1322822218, 1537002063,
   1747873779, 1955562222, 2024104815, 2227730452, 2361852424,
   2428436474, 2756734187, 3204031479, 3329325298]

/-- Big-endian bytes of a 64-bit length field. -/
def beBytes8 (n : Nat) : List Nat :=
  [n >>> 56 % 256, n >>> 48 % 256, n >>> 40 % 256, n >>> 32 % 256,
   n >>> 24 % 256, n >>> 16 % 256, n >>> 8 % 256, n % 256]

/-- Big-endian bytes of a 32-bit word. -/
def beBytes4 (n : Nat) : List Nat :=
  [n >>> 24 % 256, n >>> 16 % 256, n >>> 8 % 256, n % 256]

/-- SHA-256 padding: `0x80`, zeros to 56 mod 64, then the bit length. -/
def padMsg (msg : List Nat) : List Nat :=
  msg ++ 128 :: List.replicate ((119 - msg.length % 64) % 64) 0 ++
    beBytes8 (8 * msg.length)

/-- Split a byte list into 64-byte chunks. The fuel argument (instantiated
with the list length, always sufficient) keeps the recursion structural so
that concrete instances reduce definitionally. -/
def toChunksF : Nat → List Nat → List (List Nat)
  | _, [] => []
  | 0, _ => []
  | fuel + 1, l => l.take 64 :: toChunksF fuel (l.drop 64)

def toChunks (l : List Nat) : List (List Nat) := toChunksF l.length l

def sigma0 (x : Nat) : Nat := (rotr 7 x) ^^^ (rotr 18 x) ^^^ (x >>> 3)
def sigma1 (x : Nat) : Nat := (rotr 17 x) ^^^ (rotr 19 x) ^^^ (x >>> 10)
def bigSigma0 (x : Nat) : Nat := (rotr 2 x) ^^^ (rotr 13 x) ^^^ (rotr 22 x)
def bigSigma1 (x : Nat) : Nat := (rotr 6 x) ^^^ (rotr 11 x) ^^^ (rotr 25 x)

/-- Extend the 16-word message schedule out to 64 words (`k` counts the
remaining words to append). -/
def buildW (w : List Nat) : Nat → List Nat
  | 0 => w
  | k + 1 =>
    let n := w.length
    let x := (sigma1 (w.getD (n - 2) 0) + w.getD (n - 7) 0 +
              sigma0 (w.getD (n - 15) 0) + w.getD (n - 16) 0) % 4294967296
    buildW (w ++ [x]) k

/-- Message schedule of one 64-byte chunk. -/
def schedule (chunk : List Nat) : List Nat :=
  buildW ((List.range 16).map fun i =>
    (chunk.getD (4 * i) 0) * 16777216 + (chunk.getD (4 * i + 1) 0) * 65536 +
      (chunk.getD (4 * i + 2) 0) * 256 + chunk.getD (4 * i + 3) 0) 48

/-- The eight working registers of the compression loop. -/
structure Regs where
  a : Nat
  b : Nat
  c : Nat
  d : Nat
  e : Nat
  f : Nat
  g : Nat
  h : Nat

/-- One round of the SHA-256 compression function. -/
def roundStep (r : Regs) (kw : Nat × Nat) : Regs :=
  let ch := (r.e &&& r.f) ^^^ ((r.e ^^^ 4294967295) &&& r.g)
  let temp1 := (r.h + bigSigma1 r.e + ch + kw.1 + kw.2) % 4294967296
  let maj := (r.a &&& r.b) ^^^ (r.a &&& r.c) ^^^ (r.b &&& r.c)
  let temp2 := (bigSigma0 r.a + maj) % 4294967296
  ⟨(temp1 + temp2) % 4294967296, r.a, r.b, r.c,
   (r.d + temp1) % 4294967296, r.e, r.f, r.g⟩

/-- The eight hash-state words. -/
structure Sha256State where
  h0 : Nat
  h1 : Nat
  h2 : Nat
  h3 : Nat
  h4 : Nat
  h5 : Nat
  h6 : Nat
  h7 : Nat

def initialState : Sha256State :=
  ⟨1779033703, 3144134277, 1013904242, 2773480762,
   1359893119, 2600822924, 528734635, 1541459225⟩

/-- Fold one 64-byte chunk into the hash state. -/
def processChunk (st : Sha256State) (chunk : List Nat) : Sha256State :=
  let ws := schedule chunk
  let r := (K256.zip ws).foldl roundStep
    ⟨st.h0, st.h1, st.h2, st.h3, st.h4, st.h5, st.h6, st.h7⟩
  ⟨(st.h0 + r.a) % 4294967296, (st.h1 + r.b) % 4294967296,
   (st.h2 + r.c) % 4294967296, (st.h3 + r.d) % 4294967296,
   (st.h4 + r.e) % 4294967296, (st.h5 + r.f) % 4294967296,
   (st.h6 + r.g) % 4294967296, (st.h7 + r.h) % 4294967296⟩

/-- The 32 digest bytes of a final hash state. -/
def digestBytes (st : Sha256State) : List Nat :=
  beBytes4 st.h0 ++ beBytes4 st.h1 ++ beBytes4 st.h2 ++ beBytes4 st.h3 ++
    beBytes4 st.h4 ++ beBytes4 st.h5 ++ beBytes4 st.h6 ++ beBytes4 st.h7

/-- `sha256.Sum256` on a byte list. -/
def sha256 (msg : List Nat) : List Nat :=
  digestBytes ((toChunks (padMsg msg)).foldl processChunk initialState)

/-- Lowercase hex digit, as produced by Go's `%x` verb. -/
def hexDigitChar (n : Nat) : Char :=
  if n < 10 then Char.ofNat (48 + n) else Char.ofNat (87 + n)

/-- `fmt.Sprintf("%x", bytes)`: two lowercase hex digits (high nibble
first) per byte. -/
def hexOfBytes : List Nat → List Char
  | [] => []
  | b :: bs => hexDigitChar (b / 16) :: hexDigitChar (b % 16) :: hexOfBytes bs

/-- UTF-8 encoding of one character (Go `[]byte(string)`). -/
def utf8Bytes (c : Char) : List Nat :=
  let n := c.toNat
  if n < 128 then [n]
  else if n < 2048 then [192 + n / 64, 128 + n % 64]
  else if n < 65536 then [224 + n / 4096, 128 + n / 64 % 64, 128 + n % 64]
  else [240 + n / 262144, 128 + n / 4096 % 64, 128 + n / 64 % 64, 128 + n % 64]

/-- The UTF-8 bytes of a string. -/
def strBytes (s : String) : List Nat := s.data.flatMap utf8Bytes

/-- `generateChecksum` of the source: lowercase hex of the SHA-256 hash of
the description's bytes. -/
def generateChecksum (description : String) : String :=
  ⟨hexOfBytes (sha256 (strBytes description))⟩

/-- `generateEventKey` of the source:
`fmt.Sprintf("%s_%s", date.Format("20060102"), checksum[:8])`. The Go
slice `checksum[:8]` takes the first 8 bytes; the checksum is pure ASCII,
so this is the first 8 characters. -/
def generateEventKey (date : Int) (checksum : String) : String :=
  formatYYYYMMDD date ++ "_" ++ ⟨checksum.data.take 8⟩

/-! ## Data model -/

/-- `Event` of the source. -/
structure Event where
  eventDate : Int
  eventDescription : String
deriving DecidableEq, Repr

/-- `DynamoDBEvent` of the source (one stored row). -/
structure StoredEvent where
  eventKey : String
  eventDate : Int
  eventDesc : String
  eventChecksum : String
deriving DecidableEq, Repr

/-- `ChangeReport` of the source. -/
structure ChangeReport where
  deletedCount : Nat
  deletedEvents : List Event
  addedCount : Nat
  addedEvents : List Event
  upcomingEvents : List Event
deriving DecidableEq, Repr

/-- The content key of an event, as computed inside `processEvents`. -/
def eventKeyOf (e : Event) : String :=
  generateEventKey e.eventDate (generateChecksum e.eventDescription)

/-! ## Store model and the Differ (`processEvents`) -/

/-- Failure schedule for the DynamoDB calls: drives which scan / put /
delete operations fail, so that the source's error paths are expressible. -/
structure StoreModel where
  failScan : Bool
  failPut : String → Bool
  failDelete : String → Bool

/-- The schedule under which every store operation succeeds. -/
def noFail : StoreModel := ⟨false, fun _ => false, fun _ => false⟩

/-- Keys of the rows of a store. -/
def keysOf (rows : List StoredEvent) : List String :=
  rows.map StoredEvent.eventKey

/-- Membership test of `existingMap` (a map built from the scanned rows,
queried only for key presence). -/
def hasKey (rows : List StoredEvent) (k : String) : Bool :=
  rows.any fun r => r.eventKey == k

/-- `putEvent`: DynamoDB `PutItem` upserts by primary key `eventKey`. -/
def putEvent (rows : List StoredEvent) (r : StoredEvent) : List StoredEvent :=
  if rows.any (fun x => x.eventKey == r.eventKey) then
    rows.map fun x => if x.eventKey == r.eventKey then r else x
  else rows ++ [r]

/-- `deleteEvent`: DynamoDB `DeleteItem` removes the row with the key. -/
def deleteEvent (rows : List StoredEvent) (k : String) : List StoredEvent :=
  rows.filter fun r => r.eventKey != k

/-- State of the first loop of `processEvents` (over current events). -/
structure AddState where
  rows : List StoredEvent
  currentKeys : List String
  added : List Event
  upcoming : List Event
deriving Repr

/-- The upcoming-window append of the first loop:
`event.EventDate.After(now) && event.EventDate.Before(cutoff)`. -/
def upcomingUpdate (now cutoff : Int) (st : AddState) (e : Event) : AddState :=
  if now < e.eventDate ∧ e.eventDate < cutoff then
    { st with upcoming := st.upcoming ++ [e] }
  else st

/-- The first loop of `processEvents`: key each current event, put the new
ones (aborting on a put failure), and collect the upcoming window. -/
def addLoop (m : StoreModel) (ex : List StoredEvent) (now cutoff : Int) :
    AddState → List Event → AddState × Option String
  | st, [] => (st, none)
  | st, e :: rest =>
    let cks := generateChecksum e.eventDescription
    let key := generateEventKey e.eventDate cks
    let st1 := { st with currentKeys := st.currentKeys ++ [key] }
    if hasKey ex key then
      addLoop m ex now cutoff (upcomingUpdate now cutoff st1 e) rest
    else
      if m.failPut key then
        ({ st1 with added := st1.added ++ [e] }, some "error storing new event")
      else
        let st2 := { st1 with added := st1.added ++ [e],
                              rows := putEvent st1.rows
                                ⟨key, e.eventDate, e.eventDescription, cks⟩ }
        addLoop m ex now cutoff (upcomingUpdate now cutoff st2 e) rest

/-- State of the second loop of `processEvents` (over scanned rows). -/
structure DelState where
  rows : List StoredEvent
  deleted : List Event
deriving Repr

/-- The second loop of `processEvents`: delete every scanned row whose key
was not seen among the current events (aborting on a delete failure). -/
def deleteLoop (m : StoreModel) (currentKeys : List String) :
    DelState → List StoredEvent → DelState × Option String
  | st, [] => (st, none)
  | st, r :: rest =>
    if r.eventKey ∈ currentKeys then
      deleteLoop m currentKeys st rest
    else
      let st1 := { st with deleted := st.deleted ++ [⟨r.eventDate, r.eventDesc⟩] }
      if m.failDelete r.eventKey then (st1, some "error deleting event")
      else
        deleteLoop m currentKeys
          { st1 with rows := deleteEvent st1.rows r.eventKey } rest

/-- Insertion into a date-sorted list (`sort.Slice` by `Before`). -/
def insertByDate (e : Event) : List Event → List Event
  | [] => [e]
  | x :: xs =>
    if x.eventDate < e.eventDate then x :: insertByDate e xs else e :: x :: xs

/-- Sort the upcoming events ascending by date. -/
def sortByDate (l : List Event) : List Event := l.foldr insertByDate []

/-- The initial `AddState` after a successful scan of `store0`. -/
def initAdd (store0 : List StoredEvent) : AddState := ⟨store0, [], [], []⟩

/-- `processEvents` of the source. Returns the final store contents
together with the result handed to the caller: the `ChangeReport` on
success, or the wrapped error on the first failing store operation. -/
def processEvents (m : StoreModel) (store0 : List StoredEvent)
    (events : List Event) (now : Int) :
    List StoredEvent × Except String ChangeReport :=
  if m.failScan then (store0, .error "error getting existing events")
  else
    let cutoff := now + 60 * 86400
    let ares := addLoop m store0 now cutoff (initAdd store0) events
    match ares.2 with
    | some msg => (ares.1.rows, .error msg)
    | none =>
      let dres := deleteLoop m ares.1.currentKeys ⟨ares.1.rows, []⟩ store0
      match dres.2 with
      | some msg => (dres.1.rows, .error msg)
      | none =>
        (dres.1.rows,
         .ok { deletedCount := dres.1.deleted.length
               deletedEvents := dres.1.deleted
               addedCount := ares.1.added.length
               addedEvents := ares.1.added
               upcomingEvents := sortByDate ares.1.upcoming })

/-! ## Extractor (`extractEvents` on the parsed HTML tree) -/

mutual
/-- A parsed HTML node (`golang.org/x/net/html`): an element with its
attributes and children, a text node, or any other node kind that only
carries children (document, comment, doctype). -/
inductive HTree where
  | element (attrs : List (String × String)) (children : HForest)
  | text (s : String)
  | container (children : HForest)
inductive HForest where
  | nil
  | cons (hd : HTree) (tl : HForest)
end

mutual
/-- `getTextContent` of the source: a text node yields its data; any other
node concatenates its children's text in document order. -/
def getTextContent : HTree → String
  | .text s => s
  | .element _ children => textOfForest children
  | .container children => textOfForest children
def textOfForest : HForest → String
  | .nil => ""
  | .cons hd tl => getTextContent hd ++ textOfForest tl
end

/-- Result of the attribute loop of `extractEvents` for one node. -/
structure AttrScan where
  hasEventsClass : Bool
  ariaLabel : String
  description : String

/-- One iteration of the attribute loop: `class="events"` marks the node
and captures the (normalized) text content; `aria-labelledby` records its
value (a later duplicate overwrites an earlier one). -/
def scanStep (textClean : String) (acc : AttrScan) (attr : String × String) :
    AttrScan :=
  let acc1 :=
    if attr.1 == "class" && attr.2 == "events" then
      { acc with hasEventsClass := true, description := textClean }
    else acc
  if attr.1 == "aria-labelledby" then { acc1 with ariaLabel := attr.2 } else acc1

/-- The attribute loop of `extractEvents`. -/
def scanAttrs (textClean : String) (attrs : List (String × String)) : AttrScan :=
  attrs.foldl (scanStep textClean) ⟨false, "", ""⟩

/-- `strings.Split(s, "-")` on characters: the dash-delimited segments
(always at least one segment). -/
def splitOnDash : List Char → List (List Char)
  | [] => [[]]
  | c :: cs =>
    match splitOnDash cs with
    | [] => [[]]
    | p :: ps => if c = '-' then [] :: p :: ps else (c :: p) :: ps

/-- The per-node event rule of `extractEvents`, given the node's attributes
and its normalized text content: require `class="events"`, a non-empty
`aria-labelledby`, more than one dash-segment, a final segment of exactly
8 characters, and a successful `YYYYMMDD` parse. -/
def eventOfNodeCore (attrs : List (String × String)) (textClean : String) :
    Option Event :=
  let sc := scanAttrs textClean attrs
  if sc.hasEventsClass && sc.ariaLabel != "" then
    let parts := splitOnDash sc.ariaLabel.data
    if parts.length > 1 then
      let dateStr := parts.getLastD []
      if dateStr.length == 8 then
        match parseYYYYMMDD dateStr with
        | some t => some ⟨t, sc.description⟩
        | none => none
      else none
    else none
  else none

/-- The event extracted at a single node, if any. -/
def eventOfTree (t : HTree) : Option Event :=
  match t with
  | .element attrs children =>
    eventOfNodeCore attrs (cleanText (textOfForest children))
  | _ => none

mutual
/-- `extractEvents`' traversal: visit each node in document order,
emitting the node's own event (if any) before its children's. -/
def extractTree : HTree → List Event
  | .text _ => []
  | .element attrs children =>
    (eventOfTree (.element attrs children)).toList ++ extractForest children
  | .container children => extractForest children
def extractForest : HForest → List Event
  | .nil => []
  | .cons hd tl => extractTree hd ++ extractForest tl
end

/-- `Modelled from the spec: the qualifying-node rule in the spec's own
words (section 4.1 / claim C5), to be compared with the source-derived
extraction.` A node qualifies as an event container iff it is an element
carrying `class="events"` and an `aria-labelledby` (the last one, if
repeated) whose value contains a dash and whose last dash-delimited
segment is exactly 8 characters parsing as a `YYYYMMDD` calendar date. -/
def qualifiesSpec (t : HTree) : Prop :=
  ∃ attrs children, t = HTree.element attrs children ∧
    ("class", "events") ∈ attrs ∧
    ∃ v, (attrs.filterMap fun a =>
            if a.1 == "aria-labelledby" then some a.2 else none).getLast? =
          some v ∧
      '-' ∈ v.data ∧
      ((splitOnDash v.data).getLastD []).length = 8 ∧
      (parseYYYYMMDD ((splitOnDash v.data).getLastD [])).isSome = true

/-! ## Reporter trigger (`HandleRequest`) -/

/-- Day of the week, as compared by `time.Now().Weekday()`. -/
inductive Weekday where
  | sunday | monday | tuesday | wednesday | thursday | friday | saturday
deriving DecidableEq, Repr

/-- The notification gate of `HandleRequest`:
`report.AddedCount > 0 || time.Now().Weekday() == time.Friday`. -/
def shouldNotify (report : ChangeReport) (wd : Weekday) : Bool :=
  decide (0 < report.addedCount) || decide (wd = Weekday.friday)

/-- Predicate for a lowercase hexadecimal digit. -/
def isHexDigit (c : Char) : Bool :=
  ('0' ≤ c && c ≤ '9') || ('a' ≤ c && c ≤ 'f')

/-- The `AddState` after the first loop of a fully successful run. -/
def addRes (store0 : List StoredEvent) (events : List Event) (now : Int) : AddState :=
  (addLoop noFail store0 now (now + 60 * 86400) (initAdd store0) events).1

/-- The `DelState` after the second loop of a fully successful run. -/
def delRes (store0 : List StoredEvent) (events : List Event) (now : Int) : DelState :=
  (deleteLoop noFail (addRes store0 events now).currentKeys
    ⟨(addRes store0 events now).rows, []⟩ store0).1

/-! ## Store-operation lemmas -/

@[simp] theorem noFail_failScan : noFail.failScan = false := rfl
@[simp] theorem noFail_failPut (k : String) : noFail.failPut k = false := rfl
@[simp] theorem noFail_failDelete (k : String) : noFail.failDelete k = false := rfl

theorem hasKey_iff (rows : List StoredEvent) (k : String) :
    hasKey rows k = true ↔ k ∈ keysOf rows := by
  simp [hasKey, keysOf, List.any_eq_true, List.mem_map]

theorem hasKey_false_iff (rows : List StoredEvent) (k : String) :
    hasKey rows k = false ↔ k ∉ keysOf rows := by
  rw [← hasKey_iff]
  cases hasKey rows k <;> simp

theorem keysOf_put_replace (rows : List StoredEvent) (r : StoredEvent) :
    keysOf (rows.map fun x => if x.eventKey == r.eventKey then r else x) =
      keysOf rows := by
  unfold keysOf
  rw [List.map_map]
  apply List.map_congr_left
  intro x _
  simp only [Function.comp]
  split
  next hbe => exact (beq_iff_eq.mp hbe).symm
  next => rfl

theorem mem_keysOf_putEvent (rows : List StoredEvent) (r : StoredEvent) (k : String) :
    k ∈ keysOf (putEvent rows r) ↔ k ∈ keysOf rows ∨ k = r.eventKey := by
  unfold putEvent
  split
  next hany =>
    have hmem : r.eventKey ∈ keysOf rows := by
      rcases List.any_eq_true.mp hany with ⟨x, hx, hbx⟩
      exact List.mem_map.mpr ⟨x, hx, beq_iff_eq.mp hbx⟩
    rw [keysOf_put_replace]
    constructor
    · exact Or.inl
    · rintro (h | rfl)
      · exact h
      · exact hmem
  next hany =>
    unfold keysOf
    rw [List.map_append, List.mem_append]
    simp

theorem mem_keysOf_deleteEvent (rows : List StoredEvent) (k k' : String) :
    k' ∈ keysOf (deleteEvent rows k) ↔ k' ∈ keysOf rows ∧ k' ≠ k := by
  simp only [deleteEvent, keysOf, List.mem_map, List.mem_filter, bne_iff_ne, ne_eq]
  constructor
  · rintro ⟨r, ⟨hr, hne⟩, rfl⟩
    exact ⟨⟨r, hr, rfl⟩, hne⟩
  · rintro ⟨⟨r, hr, rfl⟩, hne⟩
    exact ⟨r, ⟨hr, hne⟩, rfl⟩

theorem keysOf_putEvent_nodup (rows : List StoredEvent) (r : StoredEvent)
    (h : (keysOf rows).Nodup) : (keysOf (putEvent rows r)).Nodup := by
  unfold putEvent
  split
  next hany => rw [keysOf_put_replace]; exact h
  next hany =>
    have hnin : r.eventKey ∉ keysOf rows := by
      rw [← hasKey_false_iff]
      show (rows.any fun x => x.eventKey == r.eventKey) = false
      cases hx : rows.any fun x => x.eventKey == r.eventKey
      · rfl
      · exact absurd hx hany
    show (keysOf (rows ++ [r])).Nodup
    have hkeq : keysOf (rows ++ [r]) = keysOf rows ++ [r.eventKey] := by
      unfold keysOf; rw [List.map_append]; rfl
    rw [hkeq, List.nodup_append]
    refine ⟨h, List.nodup_singleton _, ?_⟩
    intro a ha hb
    simp only [List.mem_singleton] at hb
    subst hb
    exact hnin ha

theorem keysOf_deleteEvent_nodup (rows : List StoredEvent) (k : String)
    (h : (keysOf rows).Nodup) : (keysOf (deleteEvent rows k)).Nodup :=
  h.sublist ((List.filter_sublist rows).map StoredEvent.eventKey)

/-! ## addLoop characterizations -/

@[simp] theorem upcomingUpdate_rows (now cut : Int) (st : AddState) (e : Event) :
    (upcomingUpdate now cut st e).rows = st.rows := by
  unfold upcomingUpdate; split <;> rfl

@[simp] theorem upcomingUpdate_currentKeys (now cut : Int) (st : AddState) (e : Event) :
    (upcomingUpdate now cut st e).currentKeys = st.currentKeys := by
  unfold upcomingUpdate; split <;> rfl

@[simp] theorem upcomingUpdate_added (now cut : Int) (st : AddState) (e : Event) :
    (upcomingUpdate now cut st e).added = st.added := by
  unfold upcomingUpdate; split <;> rfl

theorem upcomingUpdate_upcoming (now cut : Int) (st : AddState) (e : Event) :
    (upcomingUpdate now cut st e).upcoming =
      st.upcoming ++ (if now < e.eventDate ∧ e.eventDate < cut then [e] else []) := by
  unfold upcomingUpdate; split <;> simp_all

theorem addLoop_noFail_ok (ex : List StoredEvent) (now cut : Int) (evs : List Event) :
    ∀ st : AddState, (addLoop noFail ex now cut st evs).2 = none := by
  induction evs with
  | nil => intro st; rfl
  | cons e rest ih =>
    intro st
    simp only [addLoop, noFail_failPut, Bool.false_eq_true, if_false]
    split
    · exact ih _
    · exact ih _

theorem addLoop_currentKeys (ex : List StoredEvent) (now cut : Int) (evs : List Event) :
    ∀ st : AddState,
      (addLoop noFail ex now cut st evs).1.currentKeys =
        st.currentKeys ++ evs.map eventKeyOf := by
  induction evs with
  | nil => intro st; simp [addLoop]
  | cons e rest ih =>
    intro st
    simp only [addLoop, noFail_failPut, Bool.false_eq_true, if_false]
    split
    · rw [ih]; simp [eventKeyOf]
    · rw [ih]; simp [eventKeyOf]

theorem addLoop_added (ex : List StoredEvent) (now cut : Int) (evs : List Event) :
    ∀ st : AddState,
      (addLoop noFail ex now cut st evs).1.added =
        st.added ++ evs.filter fun e => !(hasKey ex (eventKeyOf e)) := by
  induction evs with
  | nil => intro st; simp [addLoop]
  | cons e rest ih =>
    intro st
    simp only [addLoop, noFail_failPut, Bool.false_eq_true, if_false]
    split
    next hk =>
      rw [ih]
      rw [List.filter_cons]
      simp [eventKeyOf, hk]
    next hk =>
      rw [ih]
      rw [List.filter_cons]
      have hk0 : hasKey ex (eventKeyOf e) = false := by
        rw [eventKeyOf]
        cases hx : hasKey ex (generateEventKey e.eventDate (generateChecksum e.eventDescription))
        · rfl
        · exact absurd hx hk
      simp [hk0]

theorem addLoop_upcoming (ex : List StoredEvent) (now cut : Int) (evs : List Event) :
    ∀ st : AddState,
      (addLoop noFail ex now cut st evs).1.upcoming =
        st.upcoming ++ evs.filter fun e =>
          decide (now < e.eventDate ∧ e.eventDate < cut) := by
  induction evs with
  | nil => intro st; simp [addLoop]
  | cons e rest ih =>
    intro st
    simp only [addLoop, noFail_failPut, Bool.false_eq_true, if_false]
    rw [List.filter_cons]
    split
    · rw [ih, upcomingUpdate_upcoming]
      by_cases hup : now < e.eventDate ∧ e.eventDate < cut <;> simp [hup]
    · rw [ih, upcomingUpdate_upcoming]
      by_cases hup : now < e.eventDate ∧ e.eventDate < cut <;> simp [hup]

theorem addLoop_rows_mem (ex : List StoredEvent) (now cut : Int) (evs : List Event) :
    ∀ (st : AddState) (k : String),
      k ∈ keysOf (addLoop noFail ex now cut st evs).1.rows ↔
        k ∈ keysOf st.rows ∨ (k ∈ evs.map eventKeyOf ∧ hasKey ex k = false) := by
  induction evs with
  | nil => intro st k; simp [addLoop]
  | cons e rest ih =>
    intro st k
    simp only [addLoop, noFail_failPut, Bool.false_eq_true, if_false]
    split
    next hk =>
      rw [ih]
      simp only [upcomingUpdate_rows, List.map_cons, List.mem_cons]
      constructor
      · rintro (h | ⟨h1, h2⟩)
        · exact Or.inl h
        · exact Or.inr ⟨Or.inr h1, h2⟩
      · rintro (h | ⟨h1 | h1, h2⟩)
        · exact Or.inl h
        · rw [h1] at h2
          rw [show eventKeyOf e = generateEventKey e.eventDate
            (generateChecksum e.eventDescription) from rfl] at h2
          rw [hk] at h2
          exact absurd h2 (by simp)
        · exact Or.inr ⟨h1, h2⟩
    next hk =>
      rw [ih]
      have hk0 : hasKey ex (eventKeyOf e) = false := by
        rw [eventKeyOf]
        cases hx : hasKey ex (generateEventKey e.eventDate (generateChecksum e.eventDescription))
        · rfl
        · exact absurd hx hk
      simp only [upcomingUpdate_rows, List.map_cons, List.mem_cons]
      rw [mem_keysOf_putEvent]
      constructor
      · rintro ((h | h) | ⟨h1, h2⟩)
        · exact Or.inl h
        · exact Or.inr ⟨Or.inl (by rw [h]; rfl), by rw [h]; exact hk0⟩
        · exact Or.inr ⟨Or.inr h1, h2⟩
      · rintro (h | ⟨h1 | h1, h2⟩)
        · exact Or.inl (Or.inl h)
        · exact Or.inl (Or.inr (by rw [h1]; rfl))
        · exact Or.inr ⟨h1, h2⟩

theorem addLoop_rows_nodup (ex : List StoredEvent) (now cut : Int) (evs : List Event) :
    ∀ st : AddState, (keysOf st.rows).Nodup →
      (keysOf (addLoop noFail ex now cut st evs).1.rows).Nodup := by
  induction evs with
  | nil => intro st h; exact h
  | cons e rest ih =>
    intro st h
    simp only [addLoop, noFail_failPut, Bool.false_eq_true, if_false]
    split
    · exact ih _ (by simpa using h)
    · exact ih _ (by simpa using keysOf_putEvent_nodup _ _ h)

/-! ## deleteLoop characterizations -/

theorem deleteLoop_noFail_ok (cur : List String) (rs : List StoredEvent) :
    ∀ st : DelState, (deleteLoop noFail cur st rs).2 = none := by
  induction rs with
  | nil => intro st; rfl
  | cons r rest ih =>
    intro st
    simp only [deleteLoop, noFail_failDelete, Bool.false_eq_true, if_false]
    split
    · exact ih _
    · exact ih _

theorem deleteLoop_rows_mem (cur : List String) (rs : List StoredEvent) :
    ∀ (st : DelState) (k : String),
      k ∈ keysOf (deleteLoop noFail cur st rs).1.rows ↔
        k ∈ keysOf st.rows ∧ ¬ ∃ r ∈ rs, r.eventKey = k ∧ k ∉ cur := by
  induction rs with
  | nil => intro st k; simp [deleteLoop]
  | cons r rest ih =>
    intro st k
    simp only [deleteLoop, noFail_failDelete, Bool.false_eq_true, if_false]
    split
    next hin =>
      rw [ih]
      constructor
      · rintro ⟨h1, h2⟩
        refine ⟨h1, ?_⟩
        rintro ⟨x, hx, hk, hnc⟩
        rcases List.mem_cons.mp hx with rfl | hx
        · rw [hk] at hin; exact hnc hin
        · exact h2 ⟨x, hx, hk, hnc⟩
      · rintro ⟨h1, h2⟩
        exact ⟨h1, fun ⟨x, hx, hk, hnc⟩ => h2 ⟨x, List.mem_cons_of_mem _ hx, hk, hnc⟩⟩
    next hin =>
      rw [ih]
      rw [mem_keysOf_deleteEvent]
      constructor
      · rintro ⟨⟨h1, hne⟩, h2⟩
        refine ⟨h1, ?_⟩
        rintro ⟨x, hx, hk, hnc⟩
        rcases List.mem_cons.mp hx with rfl | hx
        · exact hne hk.symm
        · exact h2 ⟨x, hx, hk, hnc⟩
      · rintro ⟨h1, h2⟩
        refine ⟨⟨h1, ?_⟩, ?_⟩
        · rintro rfl
          exact h2 ⟨r, List.mem_cons_self _ _, rfl, hin⟩
        · rintro ⟨x, hx, hk, hnc⟩
          exact h2 ⟨x, List.mem_cons_of_mem _ hx, hk, hnc⟩

theorem deleteLoop_rows_nodup (cur : List String) (rs : List StoredEvent) :
    ∀ st : DelState, (keysOf st.rows).Nodup →
      (keysOf (deleteLoop noFail cur st rs).1.rows).Nodup := by
  induction rs with
  | nil => intro st h; exact h
  | cons r rest ih =>
    intro st h
    simp only [deleteLoop, noFail_failDelete, Bool.false_eq_true, if_false]
    split
    · exact ih _ h
    · exact ih _ (keysOf_deleteEvent_nodup _ _ h)

/-! ## The successful run of processEvents -/

theorem processEvents_noFail_eq (store0 : List StoredEvent) (events : List Event)
    (now : Int) :
    processEvents noFail store0 events now =
      ((delRes store0 events now).rows,
       Except.ok
         { deletedCount := (delRes store0 events now).deleted.length
           deletedEvents := (delRes store0 events now).deleted
           addedCount := (addRes store0 events now).added.length
           addedEvents := (addRes store0 events now).added
           upcomingEvents := sortByDate (addRes store0 events now).upcoming }) := by
  unfold processEvents
  simp only [noFail_failScan, Bool.false_eq_true, if_false, addLoop_noFail_ok,
    deleteLoop_noFail_ok]
  rfl

theorem processEvents_noFail_keys (store0 : List StoredEvent) (events : List Event)
    (now : Int) (k : String) :
    k ∈ keysOf (processEvents noFail store0 events now).1 ↔
      k ∈ events.map eventKeyOf := by
  rw [processEvents_noFail_eq]
  show k ∈ keysOf (delRes store0 events now).rows ↔ _
  unfold delRes
  rw [deleteLoop_rows_mem]
  show k ∈ keysOf (addRes store0 events now).rows ∧ _ ↔ _
  unfold addRes
  rw [addLoop_rows_mem, addLoop_currentKeys]
  simp only [initAdd, List.nil_append]
  have hex : (∃ r ∈ store0, r.eventKey = k ∧ k ∉ events.map eventKeyOf) ↔
      (k ∈ keysOf store0 ∧ k ∉ events.map eventKeyOf) := by
    constructor
    · rintro ⟨r, hr, rfl, hnc⟩
      exact ⟨List.mem_map.mpr ⟨r, hr, rfl⟩, hnc⟩
    · rintro ⟨hk, hnc⟩
      rcases List.mem_map.mp hk with ⟨r, hr, rfl⟩
      exact ⟨r, hr, rfl, hnc⟩
  rw [hex, hasKey_false_iff]
  by_cases hA : k ∈ keysOf store0 <;> by_cases hB : k ∈ events.map eventKeyOf <;>
    simp [hA, hB]

/-- C1: a fully successful Differ run converges the store: afterwards a
key is present among the stored rows iff it is derived (via
`generateEventKey` ∘ `generateChecksum`) from some event of the current
extraction — every current event's key is present, every other stored key
has been deleted. -/
theorem processEvents_keyset_convergence (store0 : List StoredEvent)
    (events : List Event) (now : Int) :
    (∃ r, (processEvents noFail store0 events now).2 = Except.ok r) ∧
    ∀ k, k ∈ keysOf (processEvents noFail store0 events now).1 ↔
      k ∈ events.map eventKeyOf := by
  constructor
  · exact ⟨_, by rw [processEvents_noFail_eq]⟩
  · exact fun k => processEvents_noFail_keys store0 events now k

/-! ## Row-count lemmas for C7 -/

theorem filter_key_length (rows : List StoredEvent) (k : String) :
    (rows.filter fun r => r.eventKey == k).length = (keysOf rows).count k := by
  induction rows with
  | nil => rfl
  | cons r rest ih =>
    show (List.filter _ (r :: rest)).length = ((r.eventKey :: keysOf rest).count k)
    rw [List.filter_cons, List.count_cons]
    by_cases h : r.eventKey = k
    · simp [h, ih]
    · simp [h, ih, fun hk : k = r.eventKey => h hk.symm]

/-- C7: two current events with identical (date, description) derive the
same key, and after one successful run the store holds exactly one row
under that key (the snapshot's keys being unique, as DynamoDB's primary
key guarantees for the scanned table). -/
theorem duplicate_events_collapse_in_store (store0 : List StoredEvent)
    (events : List Event) (now : Int) (e1 e2 : Event)
    (hnd : (keysOf store0).Nodup) (h1 : e1 ∈ events) (_h2 : e2 ∈ events)
    (hdate : e1.eventDate = e2.eventDate)
    (hdesc : e1.eventDescription = e2.eventDescription) :
    eventKeyOf e1 = eventKeyOf e2 ∧
    ((processEvents noFail store0 events now).1.filter
        fun r => r.eventKey == eventKeyOf e1).length = 1 := by
  constructor
  · unfold eventKeyOf; rw [hdate, hdesc]
  · rw [filter_key_length]
    have hmem : eventKeyOf e1 ∈ keysOf (processEvents noFail store0 events now).1 := by
      rw [processEvents_noFail_keys]
      exact List.mem_map_of_mem _ h1
    have hnodup : (keysOf (processEvents noFail store0 events now).1).Nodup := by
      rw [processEvents_noFail_eq]
      show (keysOf (delRes store0 events now).rows).Nodup
      unfold delRes
      apply deleteLoop_rows_nodup
      show (keysOf (addRes store0 events now).rows).Nodup
      unfold addRes
      exact addLoop_rows_nodup _ _ _ _ _ hnd
    exact List.count_eq_one_of_mem hnodup hmem

/-- Witness for C7: duplicated extraction of the same event against an
empty store leaves exactly one row under the shared key. -/
theorem duplicate_events_collapse_witness :
    ((processEvents noFail [] [⟨0, "x"⟩, ⟨0, "x"⟩] 0).1.filter
        fun r => r.eventKey == eventKeyOf ⟨0, "x"⟩).length = 1 :=
  (duplicate_events_collapse_in_store [] [⟨0, "x"⟩, ⟨0, "x"⟩] 0 ⟨0, "x"⟩ ⟨0, "x"⟩
    List.nodup_nil (by decide) (by decide) rfl rfl).2

/-! ## Membership in the sorted upcoming list -/

theorem mem_insertByDate (e x : Event) (l : List Event) :
    x ∈ insertByDate e l ↔ x = e ∨ x ∈ l := by
  induction l with
  | nil => simp [insertByDate]
  | cons y ys ih =>
    simp only [insertByDate]
    split
    · simp [ih, or_left_comm]
    · simp

theorem mem_sortByDate (x : Event) (l : List Event) : x ∈ sortByDate l ↔ x ∈ l := by
  unfold sortByDate
  induction l with
  | nil => simp
  | cons y ys ih => rw [List.foldr_cons, mem_insertByDate, ih, List.mem_cons]

/-- C4: the upcoming-events filter of `processEvents` is strict on both
ends of the window `(now, now + 60 days)`: an event dated exactly `now` or
exactly `now + 60 days` is excluded, one dated one second inside either
bound is included. -/
theorem upcoming_window_strict_bounds (store0 : List StoredEvent)
    (events : List Event) (now : Int) (r : ChangeReport)
    (h : (processEvents noFail store0 events now).2 = Except.ok r) (e : Event) :
    (e ∈ r.upcomingEvents ↔
      e ∈ events ∧ now < e.eventDate ∧ e.eventDate < now + 60 * 86400) ∧
    (e.eventDate = now → e ∉ r.upcomingEvents) ∧
    (e.eventDate = now + 60 * 86400 → e ∉ r.upcomingEvents) ∧
    (e ∈ events → e.eventDate = now + 1 → e ∈ r.upcomingEvents) ∧
    (e ∈ events → e.eventDate = now + 60 * 86400 - 1 → e ∈ r.upcomingEvents) := by
  rw [processEvents_noFail_eq] at h
  simp only [Except.ok.injEq] at h
  subst h
  have hmain : e ∈ sortByDate (addRes store0 events now).upcoming ↔
      e ∈ events ∧ now < e.eventDate ∧ e.eventDate < now + 60 * 86400 := by
    rw [mem_sortByDate]
    unfold addRes
    rw [addLoop_upcoming]
    simp only [initAdd, List.nil_append]
    rw [List.mem_filter]
    simp only [decide_eq_true_eq]
  refine ⟨hmain, ?_, ?_, ?_, ?_⟩
  · intro hdate hmem
    rw [hmain] at hmem
    omega
  · intro hdate hmem
    rw [hmain] at hmem
    omega
  · intro hin hdate
    rw [hmain]
    exact ⟨hin, by omega⟩
  · intro hin hdate
    rw [hmain]
    exact ⟨hin, by omega⟩

/-- Witness for C4 on a concrete successful run. -/
theorem upcoming_window_witness :
    (⟨0, ""⟩ : Event) ∉ (ChangeReport.mk 0 [] 0 [] []).upcomingEvents :=
  (upcoming_window_strict_bounds [] [] 0 ⟨0, [], 0, [], []⟩ rfl ⟨0, ""⟩).2.1 rfl

/-! ## Error paths of processEvents (for C9) -/

theorem addLoop_err_prefix (m : StoreModel) (ex : List StoredEvent) (now cut : Int)
    (evs : List Event) : ∀ (st : AddState) (msg : String),
    (addLoop m ex now cut st evs).2 = some msg →
    ∃ pre post, evs = pre ++ post ∧
      (addLoop m ex now cut st evs).1.rows =
        (addLoop noFail ex now cut st pre).1.rows := by
  induction evs with
  | nil => intro st msg h; simp [addLoop] at h
  | cons e rest ih =>
    intro st msg h
    by_cases hk : hasKey ex
        (generateEventKey e.eventDate (generateChecksum e.eventDescription)) = true
    · simp only [addLoop, hk, if_true] at h ⊢
      obtain ⟨pre, post, hsplit, hrows⟩ := ih _ _ h
      refine ⟨e :: pre, post, by rw [List.cons_append, hsplit], ?_⟩
      simp only [addLoop, hk, if_true]
      exact hrows
    · have hk0 : hasKey ex
          (generateEventKey e.eventDate (generateChecksum e.eventDescription)) = false := by
        cases hx : hasKey ex
            (generateEventKey e.eventDate (generateChecksum e.eventDescription))
        · rfl
        · exact absurd hx hk
      by_cases hp : m.failPut
          (generateEventKey e.eventDate (generateChecksum e.eventDescription)) = true
      · refine ⟨[], e :: rest, rfl, ?_⟩
        simp [addLoop, hk0, hp]
      · have hp0 : m.failPut
            (generateEventKey e.eventDate (generateChecksum e.eventDescription)) = false := by
          cases hx : m.failPut
              (generateEventKey e.eventDate (generateChecksum e.eventDescription))
          · rfl
          · exact absurd hx hp
        simp only [addLoop, hk0, hp0, Bool.false_eq_true, if_false] at h ⊢
        obtain ⟨pre, post, hsplit, hrows⟩ := ih _ _ h
        refine ⟨e :: pre, post, by rw [List.cons_append, hsplit], ?_⟩
        simp only [addLoop, hk0, noFail_failPut, Bool.false_eq_true, if_false]
        exact hrows

theorem addLoop_ok_eq (m : StoreModel) (ex : List StoredEvent) (now cut : Int)
    (evs : List Event) : ∀ st : AddState,
    (addLoop m ex now cut st evs).2 = none →
    addLoop m ex now cut st evs = addLoop noFail ex now cut st evs := by
  induction evs with
  | nil => intro st _; rfl
  | cons e rest ih =>
    intro st h
    by_cases hk : hasKey ex
        (generateEventKey e.eventDate (generateChecksum e.eventDescription)) = true
    · simp only [addLoop, hk, if_true] at h ⊢
      exact ih _ h
    · have hk0 : hasKey ex
          (generateEventKey e.eventDate (generateChecksum e.eventDescription)) = false := by
        cases hx : hasKey ex
            (generateEventKey e.eventDate (generateChecksum e.eventDescription))
        · rfl
        · exact absurd hx hk
      by_cases hp : m.failPut
          (generateEventKey e.eventDate (generateChecksum e.eventDescription)) = true
      · simp [addLoop, hk0, hp] at h
      · have hp0 : m.failPut
            (generateEventKey e.eventDate (generateChecksum e.eventDescription)) = false := by
          cases hx : m.failPut
              (generateEventKey e.eventDate (generateChecksum e.eventDescription))
          · rfl
          · exact absurd hx hp
        simp only [addLoop, hk0, hp0, noFail_failPut, Bool.false_eq_true, if_false] at h ⊢
        exact ih _ h

theorem deleteLoop_err_prefix (m : StoreModel) (cur : List String)
    (rs : List StoredEvent) : ∀ (st : DelState) (msg : String),
    (deleteLoop m cur st rs).2 = some msg →
    ∃ pre post, rs = pre ++ post ∧
      (deleteLoop m cur st rs).1.rows = (deleteLoop noFail cur st pre).1.rows := by
  induction rs with
  | nil => intro st msg h; simp [deleteLoop] at h
  | cons r rest ih =>
    intro st msg h
    by_cases hin : r.eventKey ∈ cur
    · simp only [deleteLoop, if_pos hin] at h ⊢
      obtain ⟨pre, post, hsplit, hrows⟩ := ih _ _ h
      refine ⟨r :: pre, post, by rw [List.cons_append, hsplit], ?_⟩
      simp only [deleteLoop, if_pos hin]
      exact hrows
    · by_cases hd : m.failDelete r.eventKey = true
      · refine ⟨[], r :: rest, rfl, ?_⟩
        simp [deleteLoop, hin, hd]
      · have hd0 : m.failDelete r.eventKey = false := by
          cases hx : m.failDelete r.eventKey
          · rfl
          · exact absurd hx hd
        simp only [deleteLoop, if_neg hin, hd0, Bool.false_eq_true, if_false] at h ⊢
        obtain ⟨pre, post, hsplit, hrows⟩ := ih _ _ h
        refine ⟨r :: pre, post, by rw [List.cons_append, hsplit], ?_⟩
        simp only [deleteLoop, if_neg hin, noFail_failDelete, Bool.false_eq_true, if_false]
        exact hrows

/-- C9: a failing store operation aborts the whole run with an error (so
no partial `ChangeReport` reaches the caller), while the store keeps every
write applied before the failing operation and nothing else: after a scan
failure it is untouched, after a put failure it is the no-failure add
phase applied to a prefix of the events, and after a delete failure it is
the no-failure delete phase applied to a prefix of the scanned rows. -/
theorem store_failure_aborts_without_rollback (m : StoreModel)
    (store0 : List StoredEvent) (events : List Event) (now : Int) :
    (m.failScan = true →
      processEvents m store0 events now =
        (store0, Except.error "error getting existing events")) ∧
    (∀ msg, (processEvents m store0 events now).2 = Except.error msg →
      (∀ r, (processEvents m store0 events now).2 ≠ Except.ok r) ∧
      ((processEvents m store0 events now).1 = store0 ∨
       (∃ pre post, events = pre ++ post ∧
          (processEvents m store0 events now).1 =
            (addLoop noFail store0 now (now + 60 * 86400) (initAdd store0) pre).1.rows) ∨
       (∃ pre post, store0 = pre ++ post ∧
          (processEvents m store0 events now).1 =
            (deleteLoop noFail
              (addLoop noFail store0 now (now + 60 * 86400) (initAdd store0)
                events).1.currentKeys
              ⟨(addLoop noFail store0 now (now + 60 * 86400) (initAdd store0)
                events).1.rows, []⟩
              pre).1.rows))) := by
  constructor
  · intro hscan
    simp [processEvents, hscan]
  · intro msg hmsg
    refine ⟨fun r hr => by rw [hmsg] at hr; exact Except.noConfusion hr, ?_⟩
    by_cases hscan : m.failScan = true
    · left
      simp [processEvents, hscan]
    · have hsc : m.failScan = false := by
        cases hx : m.failScan
        · rfl
        · exact absurd hx hscan
      simp only [processEvents, hsc, Bool.false_eq_true, if_false] at hmsg ⊢
      rcases ha : (addLoop m store0 now (now + 60 * 86400) (initAdd store0) events).2 with
        _ | amsg
      · have haeq := addLoop_ok_eq m store0 now (now + 60 * 86400) events (initAdd store0) ha
        rcases hd : (deleteLoop m
            (addLoop m store0 now (now + 60 * 86400) (initAdd store0) events).1.currentKeys
            ⟨(addLoop m store0 now (now + 60 * 86400) (initAdd store0) events).1.rows, []⟩
            store0).2 with _ | dmsg
        · simp only [ha, hd] at hmsg
          exact Except.noConfusion hmsg
        · right; right
          obtain ⟨pre, post, hsplit, hrows⟩ := deleteLoop_err_prefix m
            (addLoop m store0 now (now + 60 * 86400) (initAdd store0) events).1.currentKeys
            store0 _ _ hd
          refine ⟨pre, post, hsplit, ?_⟩
          simp only [ha, hd]
          rw [hrows, haeq]
      · right; left
        obtain ⟨pre, post, hsplit, hrows⟩ :=
          addLoop_err_prefix m store0 now (now + 60 * 86400) events (initAdd store0) _ ha
        refine ⟨pre, post, hsplit, ?_⟩
        simp only [ha]
        exact hrows

/-- Witness for C9: with a failing scan the run returns the error and the
untouched store. -/
theorem store_failure_witness :
    processEvents ⟨true, fun _ => false, fun _ => false⟩ [] [] 0 =
      ([], Except.error "error getting existing events") :=
  (store_failure_aborts_without_rollback ⟨true, fun _ => false, fun _ => false⟩
    [] [] 0).1 rfl

/-! ## Basic facts about the checksum and the key -/

theorem hexDigitChar_isHex {n : Nat} (h : n < 16) : isHexDigit (hexDigitChar n) = true := by
  interval_cases n <;> decide

theorem hexOfBytes_length (l : List Nat) : (hexOfBytes l).length = 2 * l.length := by
  induction l with
  | nil => rfl
  | cons b bs ih => simp [hexOfBytes, ih]; omega

theorem hexOfBytes_isHex (l : List Nat) (hb : ∀ b ∈ l, b < 256) :
    ∀ c ∈ hexOfBytes l, isHexDigit c = true := by
  induction l with
  | nil => simp [hexOfBytes]
  | cons b bs ih =>
    intro c hc
    have hblt : b < 256 := hb b (by simp)
    simp only [hexOfBytes, List.mem_cons] at hc
    rcases hc with rfl | rfl | hc
    · exact hexDigitChar_isHex (by omega)
    · exact hexDigitChar_isHex (Nat.mod_lt _ (by norm_num))
    · exact ih (fun x hx => hb x (by simp [hx])) c hc

theorem digestBytes_length (st : Sha256State) : (digestBytes st).length = 32 := by
  simp [digestBytes, beBytes4]

theorem beBytes4_lt (n : Nat) : ∀ b ∈ beBytes4 n, b < 256 := by
  intro b hb
  simp only [beBytes4, List.mem_cons, List.not_mem_nil, or_false] at hb
  rcases hb with rfl | rfl | rfl | rfl <;> exact Nat.mod_lt _ (by norm_num)

theorem digestBytes_lt (st : Sha256State) : ∀ b ∈ digestBytes st, b < 256 := by
  intro b hb
  simp only [digestBytes, List.mem_append] at hb
  rcases hb with ((((((h | h) | h) | h) | h) | h) | h) | h <;> exact beBytes4_lt _ b h

theorem sha256_length (msg : List Nat) : (sha256 msg).length = 32 :=
  digestBytes_length _

theorem generateChecksum_length (desc : String) :
    (generateChecksum desc).length = 64 := by
  show (hexOfBytes (sha256 (strBytes desc))).length = 64
  rw [hexOfBytes_length, sha256_length]

/-- C10: for every description, `generateChecksum` returns a 64-character
hexadecimal string, so the Go slice `checksum[:8]` inside
`generateEventKey` is in bounds (8 ≤ 64) and cannot panic. -/
theorem generateChecksum_hex64_safe (desc : String) :
    (generateChecksum desc).length = 64 ∧
    (∀ c ∈ (generateChecksum desc).data, isHexDigit c = true) ∧
    8 ≤ (generateChecksum desc).length := by
  refine ⟨generateChecksum_length desc, ?_, ?_⟩
  · intro c hc
    exact hexOfBytes_isHex _ (digestBytes_lt _) c hc
  · rw [generateChecksum_length]; omega

/-- C2: the derived key is the `YYYYMMDD`-formatted date, an underscore,
and the first 8 (hexadecimal) characters of the SHA-256 checksum of the
description; it is a pure function of (date, description); and two events
on the same date whose 8-character checksum prefixes differ get different
keys. -/
theorem eventKey_structure (date : Int) (d1 d2 : String) (e1 e2 : Event)
    (hpre : (generateChecksum d1).data.take 8 ≠ (generateChecksum d2).data.take 8)
    (hd : e1.eventDate = e2.eventDate)
    (hs : e1.eventDescription = e2.eventDescription) :
    generateEventKey date (generateChecksum d1) =
      formatYYYYMMDD date ++ "_" ++ (⟨(generateChecksum d1).data.take 8⟩ : String) ∧
    eventKeyOf e1 = eventKeyOf e2 ∧
    generateEventKey date (generateChecksum d1) ≠
      generateEventKey date (generateChecksum d2) := by
  refine ⟨rfl, ?_, ?_⟩
  · unfold eventKeyOf
    rw [hd, hs]
  · intro h
    apply hpre
    have hdata := congrArg String.data h
    simp only [generateEventKey, String.data_append] at hdata
    exact List.append_cancel_left hdata

/-- Witness for C2 at concrete inputs: the checksums of `""` and `"x"`
have different 8-character prefixes, hence different keys on one date. -/
theorem eventKey_structure_witness :
    (generateChecksum "").data.take 8 ≠ (generateChecksum "x").data.take 8 ∧
    generateEventKey 0 (generateChecksum "") ≠
      generateEventKey 0 (generateChecksum "x") :=
  ⟨by decide,
   (eventKey_structure 0 "" "x" ⟨0, "y"⟩ ⟨0, "y"⟩ (by decide) rfl rfl).2.2⟩

/-! ## Extractor lemmas -/

theorem scanStep_hasCls (tc : String) (acc : AttrScan) (attr : String × String) :
    (scanStep tc acc attr).hasEventsClass =
      (acc.hasEventsClass || (attr.1 == "class" && attr.2 == "events")) := by
  unfold scanStep
  split <;> split <;> simp_all

theorem scanStep_aria (tc : String) (acc : AttrScan) (attr : String × String) :
    (scanStep tc acc attr).ariaLabel =
      if attr.1 == "aria-labelledby" then attr.2 else acc.ariaLabel := by
  unfold scanStep
  split <;> split <;> simp_all

theorem scanStep_desc (tc : String) (acc : AttrScan) (attr : String × String) :
    (scanStep tc acc attr).description =
      if attr.1 == "class" && attr.2 == "events" then tc else acc.description := by
  unfold scanStep
  split <;> split <;> simp_all

theorem scanAttrs_hasCls_gen (tc : String) (attrs : List (String × String)) :
    ∀ acc : AttrScan,
      (attrs.foldl (scanStep tc) acc).hasEventsClass =
        (acc.hasEventsClass || attrs.any fun a => a.1 == "class" && a.2 == "events") := by
  induction attrs with
  | nil => intro acc; simp
  | cons a rest ih =>
    intro acc
    rw [List.foldl_cons, ih, scanStep_hasCls, List.any_cons, Bool.or_assoc]

theorem scanAttrs_hasCls (tc : String) (attrs : List (String × String)) :
    (scanAttrs tc attrs).hasEventsClass =
      attrs.any fun a => a.1 == "class" && a.2 == "events" := by
  unfold scanAttrs
  rw [scanAttrs_hasCls_gen]
  rfl

theorem scanAttrs_aria_gen (tc : String) (attrs : List (String × String)) :
    ∀ acc : AttrScan,
      (attrs.foldl (scanStep tc) acc).ariaLabel =
        (attrs.filterMap fun a =>
          if a.1 == "aria-labelledby" then some a.2 else none).getLastD acc.ariaLabel := by
  induction attrs with
  | nil => intro acc; simp
  | cons a rest ih =>
    intro acc
    rw [List.foldl_cons, ih, List.filterMap_cons]
    by_cases ha : (a.1 == "aria-labelledby") = true
    · simp only [ha, if_true, scanStep_aria, List.getLastD_cons]
    · have ha0 : (a.1 == "aria-labelledby") = false := by
        cases hx : a.1 == "aria-labelledby"
        · rfl
        · exact absurd hx ha
      simp only [ha0, Bool.false_eq_true, if_false, scanStep_aria]

theorem scanAttrs_aria (tc : String) (attrs : List (String × String)) :
    (scanAttrs tc attrs).ariaLabel =
      (attrs.filterMap fun a =>
        if a.1 == "aria-labelledby" then some a.2 else none).getLastD "" := by
  unfold scanAttrs
  rw [scanAttrs_aria_gen]

theorem scanAttrs_desc_gen (tc : String) (attrs : List (String × String)) :
    ∀ acc : AttrScan,
      (attrs.foldl (scanStep tc) acc).description =
        (if attrs.any fun a => a.1 == "class" && a.2 == "events" then tc
         else acc.description) := by
  induction attrs with
  | nil => intro acc; simp
  | cons a rest ih =>
    intro acc
    rw [List.foldl_cons, ih, scanStep_desc, List.any_cons]
    by_cases h1 : (a.1 == "class" && a.2 == "events") = true <;>
      by_cases h2 : (rest.any fun a => a.1 == "class" && a.2 == "events") = true <;>
      simp [h1, h2]

theorem scanAttrs_desc (tc : String) (attrs : List (String × String)) :
    (scanAttrs tc attrs).description =
      (if attrs.any fun a => a.1 == "class" && a.2 == "events" then tc else "") := by
  unfold scanAttrs
  rw [scanAttrs_desc_gen]

theorem splitOnDash_ne_nil (l : List Char) : splitOnDash l ≠ [] := by
  induction l with
  | nil => simp [splitOnDash]
  | cons c cs ih =>
    rcases h : splitOnDash cs with _ | ⟨p, ps⟩
    · exact absurd h ih
    · simp only [splitOnDash, h]
      split <;> simp

theorem splitOnDash_len_iff (l : List Char) : 1 < (splitOnDash l).length ↔ '-' ∈ l := by
  induction l with
  | nil => simp [splitOnDash]
  | cons c cs ih =>
    rcases h : splitOnDash cs with _ | ⟨p, ps⟩
    · exact absurd h (splitOnDash_ne_nil cs)
    · rw [h] at ih
      simp only [splitOnDash, h]
      by_cases hc : c = '-'
      · simp [hc]
      · simp only [hc, if_false, List.mem_cons]
        simp only [List.length_cons] at ih ⊢
        rw [ih]
        constructor
        · exact Or.inr
        · rintro (h | h)
          · exact absurd h.symm hc
          · exact h

theorem eventOfNodeCore_isSome (attrs : List (String × String)) (tc : String) :
    (∃ e, eventOfNodeCore attrs tc = some e) ↔
      ((attrs.any fun a => a.1 == "class" && a.2 == "events") = true ∧
       ∃ v, (attrs.filterMap fun a =>
              if a.1 == "aria-labelledby" then some a.2 else none).getLast? = some v ∧
         '-' ∈ v.data ∧
         ((splitOnDash v.data).getLastD []).length = 8 ∧
         (parseYYYYMMDD ((splitOnDash v.data).getLastD [])).isSome = true) := by
  unfold eventOfNodeCore
  dsimp only
  rcases hL : (attrs.filterMap fun a =>
      if a.1 == "aria-labelledby" then some a.2 else none).getLast? with _ | v
  · have hnil : (attrs.filterMap fun a =>
        if a.1 == "aria-labelledby" then some a.2 else none) = [] :=
      List.getLast?_eq_none_iff.mp hL
    have haria : (scanAttrs tc attrs).ariaLabel = "" := by
      rw [scanAttrs_aria, hnil]
      rfl
    rw [haria]
    constructor
    · rintro ⟨e, he⟩
      rw [if_neg (by simp)] at he
      exact Option.noConfusion he
    · rintro ⟨_, v, hv, _⟩
      rw [hL] at hv
      exact Option.noConfusion hv
  · have haria : (scanAttrs tc attrs).ariaLabel = v := by
      rw [scanAttrs_aria, List.getLastD_eq_getLast?, hL]
      rfl
    rw [haria]
    constructor
    · rintro ⟨e, he⟩
      have hcond : ((scanAttrs tc attrs).hasEventsClass && v != "") = true := by
        by_contra hc
        rw [Bool.not_eq_true] at hc
        rw [hc] at he
        simp at he
      rw [if_pos hcond] at he
      have hlen : (splitOnDash v.data).length > 1 := by
        by_contra hl
        rw [if_neg hl] at he
        exact Option.noConfusion he
      rw [if_pos hlen] at he
      have hdash : '-' ∈ v.data := (splitOnDash_len_iff v.data).mp hlen
      have h8 : (((splitOnDash v.data).getLastD []).length == 8) = true := by
        by_contra h8c
        rw [Bool.not_eq_true] at h8c
        rw [h8c] at he
        simp at he
      rw [if_pos h8] at he
      refine ⟨?_, v, hL, hdash, by simpa using h8, ?_⟩
      · rw [← scanAttrs_hasCls tc attrs]
        exact (Bool.and_eq_true_iff.mp hcond).1
      · rcases hpp : parseYYYYMMDD ((splitOnDash v.data).getLastD []) with _ | t
        · rw [hpp] at he
          exact Option.noConfusion he
        · simp [hpp]
    · rintro ⟨hcls, v', hv', hdash, h8, hp⟩
      rw [hL] at hv'
      have hveq : v' = v := Option.some.inj hv'.symm
      subst hveq
      have hvne : v' ≠ "" := by
        intro hv0
        rw [hv0] at hdash
        simp at hdash
      have hcls2 : (scanAttrs tc attrs).hasEventsClass = true := by
        rw [scanAttrs_hasCls]
        exact hcls
      rw [if_pos (by simp [hcls2, bne_iff_ne, hvne] :
        ((scanAttrs tc attrs).hasEventsClass && v' != "") = true)]
      rw [if_pos ((splitOnDash_len_iff v'.data).mpr hdash :
        (splitOnDash v'.data).length > 1)]
      rw [if_pos (by simpa using h8 :
        (((splitOnDash v'.data).getLastD []).length == 8) = true)]
      rcases hpp : parseYYYYMMDD ((splitOnDash v'.data).getLastD []) with _ | t
      · rw [hpp] at hp
        simp at hp
      · exact ⟨_, rfl⟩

/-- C5: extraction treats a node as an event container exactly under the
spec's rule: it is an element with `class="events"` and an
`aria-labelledby` whose value contains a dash and whose last dash-segment
is an 8-character valid `YYYYMMDD` date; and the traversal emits a node's
event before its children's. -/
theorem extract_container_rule (t : HTree) :
    ((∃ e, eventOfTree t = some e) ↔ qualifiesSpec t) ∧
    (∀ attrs children, extractTree (.element attrs children) =
      (eventOfTree (.element attrs children)).toList ++ extractForest children) := by
  constructor
  · cases t with
    | text s =>
      simp only [eventOfTree, qualifiesSpec]
      constructor
      · rintro ⟨e, he⟩; exact Option.noConfusion he
      · rintro ⟨attrs, children, heq, _⟩; exact HTree.noConfusion heq
    | container children =>
      simp only [eventOfTree, qualifiesSpec]
      constructor
      · rintro ⟨e, he⟩; exact Option.noConfusion he
      · rintro ⟨attrs, children', heq, _⟩; exact HTree.noConfusion heq
    | element attrs children =>
      rw [show eventOfTree (.element attrs children) =
        eventOfNodeCore attrs (cleanText (textOfForest children)) from rfl]
      rw [eventOfNodeCore_isSome]
      unfold qualifiesSpec
      constructor
      · rintro ⟨hcls, v, hv, hrest⟩
        refine ⟨attrs, children, rfl, ?_, v, hv, hrest⟩
        rcases List.any_eq_true.mp hcls with ⟨a, ha, hab⟩
        rcases Bool.and_eq_true_iff.mp hab with ⟨h1, h2⟩
        have : a = ("class", "events") := by
          rcases a with ⟨a1, a2⟩
          simp only [beq_iff_eq] at h1 h2
          rw [h1, h2]
        rw [← this]
        exact ha
      · rintro ⟨attrs', children', heq, hmem, v, hv, hrest⟩
        injection heq with h1 h2
        subst h1
        refine ⟨?_, v, hv, hrest⟩
        exact List.any_eq_true.mpr ⟨("class", "events"), hmem, by simp⟩
  · intro attrs children
    simp [extractTree]

theorem eventOfNodeCore_desc (attrs : List (String × String)) (tc : String) (e : Event)
    (h : eventOfNodeCore attrs tc = some e) : e.eventDescription = tc := by
  unfold eventOfNodeCore at h
  dsimp only at h
  rcases hc : ((scanAttrs tc attrs).hasEventsClass && (scanAttrs tc attrs).ariaLabel != "")
    with _ | _
  · rw [hc] at h
    simp at h
  · rw [hc, if_pos rfl] at h
    split at h
    · split at h
      · split at h
        next t hp =>
          have he : e = ⟨t, (scanAttrs tc attrs).description⟩ := by
            exact (Option.some.injEq _ _ ▸ h).symm ▸ rfl
          rw [he]
          show (scanAttrs tc attrs).description = tc
          rw [scanAttrs_desc]
          have hcls : (scanAttrs tc attrs).hasEventsClass = true :=
            (Bool.and_eq_true_iff.mp hc).1
          rw [scanAttrs_hasCls] at hcls
          rw [if_pos hcls]
        next => exact Option.noConfusion h
      · exact Option.noConfusion h
    · exact Option.noConfusion h

/-- C6 (amended): a qualifying node is never discarded for lack of text:
its event always appears in the extraction output, with description equal
to the normalized text content of the node — even when that is the empty
string. -/
theorem qualifying_node_kept_with_empty_description (t : HTree) (e : Event)
    (h : eventOfTree t = some e) :
    e.eventDescription = cleanText (getTextContent t) ∧ e ∈ extractTree t := by
  cases t with
  | text s => exact Option.noConfusion h
  | container children => exact Option.noConfusion h
  | element attrs children =>
    constructor
    · have := eventOfNodeCore_desc attrs (cleanText (textOfForest children)) e h
      rw [this]
      rfl
    · show e ∈ (eventOfTree (.element attrs children)).toList ++ extractForest children
      rw [h]
      exact List.mem_append_left _ (by simp)

/-- C6 (counterexample to the claim as stated): a qualifying node with no
text content is NOT discarded — it appears in the output with an empty
description. -/
theorem empty_description_not_discarded :
    (∃ e, eventOfTree (HTree.element
      [("class", "events"), ("aria-labelledby", "tab-20250310")] .nil) = some e) ∧
    cleanText (getTextContent (HTree.element
      [("class", "events"), ("aria-labelledby", "tab-20250310")] .nil)) = "" ∧
    extractTree (HTree.element
      [("class", "events"), ("aria-labelledby", "tab-20250310")] .nil) =
      [⟨1741564800, ""⟩] := by
  refine ⟨⟨⟨1741564800, ""⟩, by decide⟩, by decide, by decide⟩

/-- Witness for C6 (amended) at a concrete qualifying node without text. -/
theorem qualifying_node_kept_witness :
    (⟨1741564800, ""⟩ : Event).eventDescription =
      cleanText (getTextContent (HTree.element
        [("class", "events"), ("aria-labelledby", "tab-20250310")] .nil)) ∧
    (⟨1741564800, ""⟩ : Event) ∈ extractTree (HTree.element
      [("class", "events"), ("aria-labelledby", "tab-20250310")] .nil) :=
  qualifying_node_kept_with_empty_description _ _ (by decide)

/-! ## Normalizer lemmas (C3) -/

theorem collapseAux_allSp (l : List Char) : ∀ b, AllSp (collapseAux b l) := by
  induction l with
  | nil => intro b c hc; simp [collapseAux] at hc
  | cons x xs ih =>
    intro b c hc hcs
    simp only [collapseAux] at hc
    by_cases hsp : isGoSpace x = true
    · rw [if_pos hsp] at hc
      cases b with
      | true => exact ih true c hc hcs
      | false =>
        simp only [Bool.false_eq_true, if_false, List.mem_cons] at hc
        rcases hc with rfl | hc
        · rfl
        · exact ih true c hc hcs
    · rw [if_neg hsp] at hc
      rcases List.mem_cons.mp hc with rfl | hc
      · exact absurd hcs hsp
      · exact ih false c hc hcs

theorem collapseAux_head_true (l : List Char) :
    ∀ c, (collapseAux true l).head? = some c → isGoSpace c = false := by
  induction l with
  | nil => intro c hc; simp [collapseAux] at hc
  | cons x xs ih =>
    intro c hc
    simp only [collapseAux] at hc
    by_cases hsp : isGoSpace x = true
    · rw [if_pos hsp, if_pos trivial] at hc
      exact ih c hc
    · rw [if_neg hsp] at hc
      simp only [List.head?_cons, Option.some.injEq] at hc
      rw [← hc]
      cases hx : isGoSpace x
      · rfl
      · exact absurd hx hsp

theorem collapseAux_chain (l : List Char) : ∀ b, List.Chain' ChR (collapseAux b l) := by
  induction l with
  | nil => intro b; simp [collapseAux]
  | cons x xs ih =>
    intro b
    simp only [collapseAux]
    by_cases hsp : isGoSpace x = true
    · rw [if_pos hsp]
      cases b with
      | true => exact ih true
      | false =>
        simp only [Bool.false_eq_true, if_false]
        rw [List.chain'_cons']
        refine ⟨?_, ih true⟩
        intro y hy
        have hyf : isGoSpace y = false := collapseAux_head_true xs y (Option.mem_def.mp hy)
        rintro ⟨_, h2⟩
        rw [hyf] at h2
        exact Bool.false_ne_true h2
    · rw [if_neg hsp]
      rw [List.chain'_cons']
      refine ⟨?_, ih false⟩
      intro y _
      rintro ⟨h1, _⟩
      exact absurd h1 hsp

theorem collapseAux_id (l : List Char) : ∀ b, AllSp l → List.Chain' ChR l →
    (b = true → ∀ c, l.head? = some c → isGoSpace c = false) →
    collapseAux b l = l := by
  induction l with
  | nil => intro b _ _ _; rfl
  | cons x xs ih =>
    intro b hA hC hH
    simp only [collapseAux]
    by_cases hsp : isGoSpace x = true
    · have hx : x = ' ' := hA x (List.mem_cons_self _ _) hsp
      have hb : b = false := by
        cases b
        · rfl
        · have := hH rfl x rfl
          rw [hsp] at this
          exact absurd this (by simp)
      subst hb
      rw [if_pos hsp]
      simp only [Bool.false_eq_true, if_false]
      rw [hx]
      congr 1
      apply ih true
      · intro y hy hys
        exact hA y (List.mem_cons_of_mem _ hy) hys
      · exact hC.tail
      · intro _ c hc
        have hchr := (List.chain'_cons'.mp hC).1 c (Option.mem_def.mpr hc)
        by_contra hcc
        rw [Bool.not_eq_false] at hcc
        exact hchr ⟨hsp, hcc⟩
    · rw [if_neg hsp]
      congr 1
      apply ih false
      · intro y hy hys
        exact hA y (List.mem_cons_of_mem _ hy) hys
      · exact hC.tail
      · intro hb
        exact absurd hb (by simp)

theorem mem_of_mem_trimL {c : Char} {l : List Char} (h : c ∈ trimL l) : c ∈ l := by
  unfold trimL at h
  rw [List.mem_reverse] at h
  have h1 := (List.dropWhile_suffix isUniSpace).subset h
  rw [List.mem_reverse] at h1
  exact (List.dropWhile_suffix isUniSpace).subset h1

theorem trimL_allSp {l : List Char} (h : AllSp l) : AllSp (trimL l) :=
  fun c hc hcs => h c (mem_of_mem_trimL hc) hcs

theorem chr_flip : ∀ a b : Char, ChR a b → ChR b a :=
  fun _ _ h hp => h ⟨hp.2, hp.1⟩

theorem trimL_chain {l : List Char} (h : List.Chain' ChR l) :
    List.Chain' ChR (trimL l) := by
  unfold trimL
  have h1 : List.Chain' ChR (l.dropWhile isUniSpace) :=
    h.suffix (List.dropWhile_suffix _)
  have h2 : List.Chain' ChR (l.dropWhile isUniSpace).reverse :=
    List.chain'_reverse.mpr (h1.imp chr_flip)
  have h3 : List.Chain' ChR ((l.dropWhile isUniSpace).reverse.dropWhile isUniSpace) :=
    h2.suffix (List.dropWhile_suffix _)
  exact List.chain'_reverse.mpr (h3.imp chr_flip)

theorem replaceDash_length (l : List Char) : (replaceDash l).length = l.length := by
  induction l using replaceDash.induct with
  | case1 rest ih => simp [replaceDash, ih]
  | case2 c rest hne ih => simp [replaceDash, ih]
  | case3 => simp [replaceDash]

theorem replaceDash_head? (l : List Char) : (replaceDash l).head? = l.head? := by
  induction l using replaceDash.induct with
  | case1 rest ih => simp [replaceDash]
  | case2 c rest hne ih => simp [replaceDash]
  | case3 => rfl

theorem getLast?_cons_ne (a : Char) {l : List Char} (h : l ≠ []) :
    (a :: l).getLast? = l.getLast? := by
  rw [show a :: l = [a] ++ l from rfl]
  exact List.getLast?_append_of_ne_nil _ h

theorem replaceDash_ne_nil {l : List Char} (h : l ≠ []) : replaceDash l ≠ [] := by
  intro h0
  apply h
  have hlen := replaceDash_length l
  rw [h0] at hlen
  exact List.eq_nil_of_length_eq_zero hlen.symm

theorem replaceDash_getLast? (l : List Char) :
    (replaceDash l).getLast? = l.getLast? := by
  induction l using replaceDash.induct with
  | case1 rest ih =>
    have hred : replaceDash (' ' :: '–' :: ' ' :: rest) =
        ' ' :: '-' :: ' ' :: replaceDash rest := by simp [replaceDash]
    rw [hred]
    by_cases hrest : rest = []
    · subst hrest
      simp [replaceDash]
    · have hrne : replaceDash rest ≠ [] := replaceDash_ne_nil hrest
      rw [getLast?_cons_ne _ (by simp), getLast?_cons_ne _ (by simp [hrne]),
        getLast?_cons_ne _ hrne,
        getLast?_cons_ne _ (by simp : ('–' :: ' ' :: rest) ≠ []),
        getLast?_cons_ne _ (by simp [hrest] : (' ' :: rest) ≠ []),
        getLast?_cons_ne _ hrest]
      exact ih
  | case2 c rest hne ih =>
    have hred : replaceDash (c :: rest) = c :: replaceDash rest := by simp [replaceDash]
    rw [hred]
    by_cases hrest : rest = []
    · subst hrest
      simp [replaceDash]
    · rw [getLast?_cons_ne _ (replaceDash_ne_nil hrest), getLast?_cons_ne _ hrest]
      exact ih
  | case3 => rfl

theorem replaceDash_of_not_infix (l : List Char)
    (h : ¬ ([' ', '–', ' '] <:+: l)) : replaceDash l = l := by
  induction l using replaceDash.induct with
  | case1 rest ih => exact absurd ⟨[], rest, rfl⟩ h
  | case2 c rest hne ih =>
    have hred : replaceDash (c :: rest) = c :: replaceDash rest := by simp [replaceDash]
    rw [hred, ih fun hinf => h (List.infix_cons_iff.mpr (Or.inr hinf))]
  | case3 => rfl

theorem replaceDash_allSp (l : List Char) (h : AllSp l) : AllSp (replaceDash l) := by
  induction l using replaceDash.induct with
  | case1 rest ih =>
    have hred : replaceDash (' ' :: '–' :: ' ' :: rest) =
        ' ' :: '-' :: ' ' :: replaceDash rest := by simp [replaceDash]
    rw [hred]
    have hrest : AllSp rest := fun y hy hys =>
      h y (List.mem_cons_of_mem _ (List.mem_cons_of_mem _ (List.mem_cons_of_mem _ hy))) hys
    intro x hx hxs
    rcases List.mem_cons.mp hx with rfl | hx
    · rfl
    · rcases List.mem_cons.mp hx with rfl | hx
      · exact absurd hxs (by decide)
      · rcases List.mem_cons.mp hx with rfl | hx
        · rfl
        · exact ih hrest x hx hxs
  | case2 c rest hne ih =>
    have hred : replaceDash (c :: rest) = c :: replaceDash rest := by simp [replaceDash]
    rw [hred]
    have hrest : AllSp rest := fun y hy hys => h y (List.mem_cons_of_mem _ hy) hys
    intro x hx hxs
    rcases List.mem_cons.mp hx with rfl | hx
    · exact h x (List.mem_cons_self _ _) hxs
    · exact ih hrest x hx hxs
  | case3 => exact h

theorem replaceDash_chain (l : List Char) (h : List.Chain' ChR l) :
    List.Chain' ChR (replaceDash l) := by
  induction l using replaceDash.induct with
  | case1 rest ih =>
    have hred : replaceDash (' ' :: '–' :: ' ' :: rest) =
        ' ' :: '-' :: ' ' :: replaceDash rest := by simp [replaceDash]
    rw [hred]
    have hrest : List.Chain' ChR rest := h.tail.tail.tail
    have hhead : ∀ y, rest.head? = some y → isGoSpace y = false := by
      intro y hy
      have h3 : List.Chain' ChR (' ' :: rest) := h.tail.tail
      have hchr := (List.chain'_cons'.mp h3).1 y (Option.mem_def.mpr hy)
      by_contra hc
      rw [Bool.not_eq_false] at hc
      exact hchr ⟨by decide, hc⟩
    refine List.chain'_cons'.mpr ⟨?_, List.chain'_cons'.mpr ⟨?_,
      List.chain'_cons'.mpr ⟨?_, ih hrest⟩⟩⟩
    · intro y hy
      simp only [List.head?_cons, Option.mem_def, Option.some.injEq] at hy
      subst hy
      rintro ⟨_, h2⟩
      exact absurd h2 (by decide)
    · intro y hy
      simp only [List.head?_cons, Option.mem_def, Option.some.injEq] at hy
      subst hy
      rintro ⟨h1, _⟩
      exact absurd h1 (by decide)
    · intro y hy
      rw [Option.mem_def, replaceDash_head?] at hy
      have hyf := hhead y hy
      rintro ⟨_, h2⟩
      rw [hyf] at h2
      exact Bool.false_ne_true h2
  | case2 c rest hne ih =>
    have hred : replaceDash (c :: rest) = c :: replaceDash rest := by simp [replaceDash]
    rw [hred]
    refine List.chain'_cons'.mpr ⟨?_, ih h.tail⟩
    intro y hy
    rw [Option.mem_def, replaceDash_head?] at hy
    exact (List.chain'_cons'.mp h).1 y (Option.mem_def.mpr hy)
  | case3 => simp [replaceDash]

theorem head?_dropWhile_false (p : Char → Bool) (l : List Char) (c : Char)
    (h : (l.dropWhile p).head? = some c) : p c = false := by
  have hn := List.head?_dropWhile_not p l
  rw [h] at hn
  simpa using hn

theorem dropWhile_eq_self_of_head (p : Char → Bool) (l : List Char)
    (h : ∀ c, l.head? = some c → p c = false) : l.dropWhile p = l := by
  cases l with
  | nil => rfl
  | cons x xs =>
    rw [List.dropWhile_cons, if_neg (by rw [h x rfl]; simp)]

theorem getLast?_suffix_ne {l₁ l₂ : List Char} (hs : l₁ <:+ l₂) (h : l₁ ≠ []) :
    l₁.getLast? = l₂.getLast? := by
  obtain ⟨s, rfl⟩ := hs
  exact (List.getLast?_append_of_ne_nil _ h).symm

theorem trimL_getLast? (l : List Char) (c : Char)
    (h : (trimL l).getLast? = some c) : isUniSpace c = false := by
  unfold trimL at h
  rw [List.getLast?_reverse] at h
  exact head?_dropWhile_false _ _ _ h

theorem trimL_head? (l : List Char) (c : Char)
    (h : (trimL l).head? = some c) : isUniSpace c = false := by
  unfold trimL at h
  rw [List.head?_reverse] at h
  have hne : (l.dropWhile isUniSpace).reverse.dropWhile isUniSpace ≠ [] := by
    intro h0
    rw [h0] at h
    simp at h
  rw [getLast?_suffix_ne (List.dropWhile_suffix _) hne, List.getLast?_reverse] at h
  exact head?_dropWhile_false _ _ _ h

theorem cleanTextL_idem (l : List Char)
    (h : ¬ ([' ', '–', ' '] <:+: cleanTextL l)) :
    cleanTextL (cleanTextL l) = cleanTextL l := by
  have hAt : AllSp (cleanTextL l) :=
    replaceDash_allSp _ (trimL_allSp (collapseAux_allSp l false))
  have hCt : List.Chain' ChR (cleanTextL l) :=
    replaceDash_chain _ (trimL_chain (collapseAux_chain l false))
  have step1 : collapseAux false (cleanTextL l) = cleanTextL l :=
    collapseAux_id _ false hAt hCt (fun hb => absurd hb (by simp))
  have step2 : trimL (cleanTextL l) = cleanTextL l := by
    unfold trimL
    have hd1 : (cleanTextL l).dropWhile isUniSpace = cleanTextL l := by
      apply dropWhile_eq_self_of_head
      intro c hc
      rw [show cleanTextL l = replaceDash (trimL (collapseAux false l)) from rfl,
        replaceDash_head?] at hc
      exact trimL_head? _ c hc
    rw [hd1]
    have hd2 : (cleanTextL l).reverse.dropWhile isUniSpace = (cleanTextL l).reverse := by
      apply dropWhile_eq_self_of_head
      intro c hc
      rw [List.head?_reverse] at hc
      rw [show cleanTextL l = replaceDash (trimL (collapseAux false l)) from rfl,
        replaceDash_getLast?] at hc
      exact trimL_getLast? _ c hc
    rw [hd2, List.reverse_reverse]
  show replaceDash (trimL (collapseAux false (cleanTextL l))) = cleanTextL l
  rw [step1, step2]
  exact replaceDash_of_not_infix _ h

/-- C3 (counterexample): `cleanText` is NOT idempotent on every string —
on `"a – – b"` the non-overlapping left-to-right en-dash replacement
leaves a new `" – "` occurrence that a second application rewrites. -/
theorem cleanText_not_idempotent :
    cleanText (cleanText "a – – b") ≠ cleanText "a – – b" := by decide

/-- C3 (amended): `cleanText` is idempotent on every string whose
normalized form contains no `" – "` occurrence (the replacement step can
leave such an occurrence only for overlapping en-dash runs, as in the
counterexample; on all other strings — including ones with mixed Unicode
whitespace and isolated en-dashes — idempotence holds). -/
theorem cleanText_idempotent_of_no_dash_pattern (s : String)
    (h : ¬ ([' ', '–', ' '] <:+: (cleanText s).data)) :
    cleanText (cleanText s) = cleanText s := by
  have hl : cleanTextL (cleanTextL s.data) = cleanTextL s.data :=
    cleanTextL_idem s.data h
  show (⟨cleanTextL (cleanTextL s.data)⟩ : String) = ⟨cleanTextL s.data⟩
  rw [hl]

/-- Witness for C3 (amended): a string with Unicode whitespace and an
isolated en-dash, on which `cleanText` is idempotent. -/
theorem cleanText_idem_witness :
    cleanText (cleanText "x – y") = cleanText "x – y" :=
  cleanText_idempotent_of_no_dash_pattern "x – y" (by decide)

/-- C8: the notification gate fires exactly when `addedCount > 0` or the
run day is Friday; on a non-Friday with `addedCount = 0` it never fires,
no matter how many deletions the report carries. -/
theorem notification_trigger_iff (r : ChangeReport) (wd : Weekday) :
    (shouldNotify r wd = true ↔ (0 < r.addedCount ∨ wd = Weekday.friday)) ∧
    (wd ≠ Weekday.friday → r.addedCount = 0 → shouldNotify r wd = false) := by
  constructor
  · simp [shouldNotify]
  · intro h1 h2
    simp [shouldNotify, h1, h2]

/-- Witness for C8: two deletions, zero additions, on a Monday: no
notification. -/
theorem notification_trigger_witness :
    shouldNotify ⟨2, [], 0, [], []⟩ Weekday.monday = false :=
  (notification_trigger_iff ⟨2, [], 0, [], []⟩ Weekday.monday).2 (by decide) rfl

/-- Witness for C1 at a concrete input (the empty run succeeds). -/
theorem processEvents_keyset_witness :
    ∃ r, (processEvents noFail [] [] 0).2 = Except.ok r :=
  (processEvents_keyset_convergence [] [] 0).1

/-- Witness for C5: the traversal equation at a concrete node. -/
theorem extract_container_witness :
    extractTree (.element [] .nil) =
      (eventOfTree (.element [] .nil)).toList ++ extractForest .nil :=
  (extract_container_rule (HTree.text "")).2 [] .nil

/-- Witness for C10 at a concrete description. -/
theorem generateChecksum_hex64_witness :
    (generateChecksum "x").length = 64 :=
  (generateChecksum_hex64_safe "x").1

end ALSCal
